import Mathlib

/-!
Verification development for `git-walk` (src/git-walk.go), a process-fanout
executor: it walks a directory tree, discovers git repository roots
(directories with a child directory named ".git"), and runs a command in each,
with a fixed-size worker pool, a mutex serializing report output, buffered
output capture when concurrency is not 1, and a self-signal relay when a child
is terminated by a signal.

The embedding below translates the program's pure decision logic directly and
models its concurrency (channel handoff, mutex-guarded reporting) as explicit
transition systems.
-/

namespace GitWalk

/-! ### Output model

The program writes to the two standard streams.  Each write is a single
`fmt.Printf`/`fmt.Fprintf`/`Write` call in the source. -/

inductive OutStream where
  | stdout
  | stderr
deriving DecidableEq

structure Write where
  stream : OutStream
  data : String
deriving DecidableEq

/-- Outcome of `child.Run()` as the source distinguishes it:
`err == nil` (success), `*exec.ExitError` with `status.Signaled()` false
(nonzero exit), `*exec.ExitError` with `status.Signaled()` true (signal
termination), any other error (spawn failure). -/
inductive RunOutcome where
  | success
  | exited (code : Nat)
  | signaled (sig : Nat)
  | spawnError (msg : String)
deriving DecidableEq

/-- `strings.Join(cmd, " ")` in the source. -/
def joinedCmd (cmd : List String) : String := String.intercalate " " cmd

/-- The success status line: `fmt.Printf("cd %s; %s\n", dir, strings.Join(cmd, " "))`. -/
def successLine (dir : String) (cmd : List String) : String :=
  let j := joinedCmd cmd
  s!"cd {dir}; {j}\n"

/-- The failure line: `fmt.Fprintf(os.Stderr, "cd %s: `%s` failed on %v\n", ...)`,
used both for `*exec.ExitError` and for spawn errors. -/
def failLine (dir : String) (cmd : List String) (errTxt : String) : String :=
  let j := joinedCmd cmd
  s!"cd {dir}: `{j}` failed on {errTxt}\n"

/-- The `%v` rendering of the error value in the failure line. -/
def errText : RunOutcome → String
  | .success => ""
  | .exited c => s!"exit status {c}"
  | .signaled s => s!"signal {s}"
  | .spawnError m => m

/-- The status-line writes of one `execute` call
(source lines 121-139): success prints to stdout unless quiet;
every failure prints one line to stderr, quiet or not. -/
def statusWrites (quiet : Bool) (dir : String) (cmd : List String) :
    RunOutcome → List Write
  | .success =>
      if quiet then [] else [⟨OutStream.stdout, successLine dir cmd⟩]
  | .exited c => [⟨OutStream.stderr, failLine dir cmd (errText (.exited c))⟩]
  | .signaled s => [⟨OutStream.stderr, failLine dir cmd (errText (.signaled s))⟩]
  | .spawnError m => [⟨OutStream.stderr, failLine dir cmd m⟩]

/-- The self-signal relay (source lines 130-135): fires exactly when the
child's termination was by a signal, and relays that same signal. -/
def relaySignal : RunOutcome → Option Nat
  | .signaled s => some s
  | _ => none

/-- How the child's stdout/stderr are connected (source lines 109-115):
inherit the parent's streams when `concurrency == 1`, otherwise two fresh
private `bytes.Buffer`s. -/
inductive ChildStreams where
  | inherit
  | buffers
deriving DecidableEq

def childStreams (concurrency : Int) : ChildStreams :=
  if concurrency = 1 then ChildStreams.inherit else ChildStreams.buffers

/-- The stream setup chosen for one particular invocation: each `execute`
call evaluates `concurrency == 1` on the run's single fixed value, so the
choice does not depend on the invocation. -/
def modeOfInvocation (concurrency : Int) (j : Job) : ChildStreams :=
  childStreams concurrency

/-- The captured-output dump (source lines 140-143): when `concurrency != 1`,
the stdout buffer is written to stdout and then the stderr buffer to stderr,
still inside the locked region. -/
def bufferDump (concurrency : Int) (outBuf errBuf : String) : List Write :=
  if concurrency ≠ 1 then
    [⟨OutStream.stdout, outBuf⟩, ⟨OutStream.stderr, errBuf⟩]
  else []

/-- All writes of one `execute` call's report, in order: the status line(s),
then the captured buffers.  In the source all of these happen between
`output.Lock()` and the deferred `output.Unlock()` (lines 119-143). -/
def reportWrites (concurrency : Int) (quiet : Bool) (dir : String)
    (cmd : List String) (outcome : RunOutcome) (outBuf errBuf : String) :
    List Write :=
  statusWrites quiet dir cmd outcome ++ bufferDump concurrency outBuf errBuf

/-- One invocation's observable data: working directory, run outcome, and the
contents of the two capture buffers after the child exits. -/
structure Job where
  dir : String
  outcome : RunOutcome
  outBuf : String
  errBuf : String
deriving DecidableEq

def reportOfJob (concurrency : Int) (quiet : Bool) (cmd : List String)
    (j : Job) : List Write :=
  reportWrites concurrency quiet j.dir cmd j.outcome j.outBuf j.errBuf

/-! ### Lock placement of output

`execute` performs all its writes while holding the `output` mutex; the
walker's traversal-error writes (source lines 158 and 166) are plain
`fmt.Fprintf(os.Stderr, ...)` calls with no locking around them. -/

inductive OutEvent where
  | locked (writes : List Write)
  | bare (w : Write)
deriving DecidableEq

def isLockedEvent : OutEvent → Bool
  | .locked _ => true
  | .bare _ => false

/-- Output events of one `execute` call: one mutex-protected block. -/
def executeEvents (concurrency : Int) (quiet : Bool) (cmd : List String)
    (j : Job) : List OutEvent :=
  [OutEvent.locked (reportOfJob concurrency quiet cmd j)]

/-- `fmt.Fprintf(os.Stderr, "walk %q failed with %v\n", path, err)`. -/
def walkErrorLine (p msg : String) : String :=
  s!"walk \"{p}\" failed with {msg}\n"

/-- `fmt.Fprintf(os.Stderr, "readdir %q failed with %s\n", path, err)`. -/
def readdirErrorLine (p msg : String) : String :=
  s!"readdir \"{p}\" failed with {msg}\n"

/-- Output events of the walker when `filepath.Walk` hands it an error:
a single unprotected stderr write. -/
def walkerErrorEvents (p msg : String) : List OutEvent :=
  [OutEvent.bare ⟨OutStream.stderr, walkErrorLine p msg⟩]

/-- Output events of the walker when `ioutil.ReadDir` fails:
a single unprotected stderr write. -/
def readdirErrorEvents (p msg : String) : List OutEvent :=
  [OutEvent.bare ⟨OutStream.stderr, readdirErrorLine p msg⟩]

/-! ### Process exit status of the run itself

`main` always returns normally (exit code 0); the only abnormal-termination
path is the relay sending a child's signal to the process itself. -/

inductive RunExit where
  | code (n : Nat)
  | signal (s : Nat)
deriving DecidableEq

/-- Final termination status of the whole run, given the traversal error
lines printed and the outcomes of all invocations: if some child was
signaled, the process re-raises that signal against itself; otherwise `main`
falls off the end and the process exits 0.  Nothing else in the source sets
an exit code. -/
def runExit (walkErrors : List String) (results : List RunOutcome) : RunExit :=
  match results.filterMap relaySignal with
  | [] => RunExit.code 0
  | s :: _ => RunExit.signal s

/-! ### Directory tree and the walker

`filepath.Walk(where, walker)` visits a directory, the walker lists its
children, and if any child is a directory literally named ".git" it sends the
current path on the channel and returns `filepath.SkipDir`, which prevents
`filepath.Walk` from descending into this directory's subtree at all;
otherwise the walk descends into every child directory.  Files are skipped by
the `!info.IsDir()` check.  Paths are modelled as lists of segments; a node's
own path is passed alongside it. -/

inductive FsNode where
  | file (name : String)
  | dir (name : String) (children : List FsNode)

def nodeName : FsNode → String
  | .file n => n
  | .dir n _ => n

/-- `info.IsDir() && info.Name() == ".git"` on one child. -/
def isGitDir : FsNode → Bool
  | .dir n _ => n == ".git"
  | .file _ => false

/-- The walker's scan of the immediate children. -/
def hasGitChild (children : List FsNode) : Bool := children.any isGitDir

/-- A directory that directly contains the ".git" marker directory. -/
def isRepoRoot : FsNode → Bool
  | .dir _ children => hasGitChild children
  | .file _ => false

mutual
/-- The sequence of repository roots the walker sends on the channel when
`filepath.Walk` processes the subtree of node `t`, whose own path is `p`. -/
def walkFrom : FsNode → List String → List (List String)
  | .file _, _ => []
  | .dir _ children, p =>
      if hasGitChild children then [p] else walkChildren children p
def walkChildren : List FsNode → List String → List (List String)
  | [], _ => []
  | c :: cs, p => walkFrom c (p ++ [nodeName c]) ++ walkChildren cs p
end

/-- Sibling names in a real filesystem are distinct. -/
def distinctNames : List String → Bool
  | [] => true
  | n :: ns => (!ns.contains n) && distinctNames ns

mutual
/-- Well-formed tree: distinct sibling names throughout. -/
def wfNode : FsNode → Bool
  | .file _ => true
  | .dir _ children => distinctNames (children.map nodeName) && wfList children
def wfList : List FsNode → Bool
  | [] => true
  | c :: cs => wfNode c && wfList cs
end

def childNamed : List FsNode → String → Option FsNode
  | [], _ => none
  | c :: cs, n => if nodeName c == n then some c else childNamed cs n

/-- The node sitting at relative path `rel` below `t`, if any. -/
def subtreeAt : FsNode → List String → Option FsNode
  | t, [] => some t
  | .file _, _ :: _ => none
  | .dir _ children, n :: rest =>
      match childNamed children n with
      | some c => subtreeAt c rest
      | none => none

/-- No strict ancestor of relative path `rel` below `t` (including `t`
itself when `rel` is nonempty) is a repository root, and the path exists. -/
def noRepoAbove : FsNode → List String → Bool
  | _, [] => true
  | .file _, _ :: _ => false
  | .dir _ children, n :: rest =>
      !hasGitChild children &&
      (match childNamed children n with
       | some c => noRepoAbove c rest
       | none => false)

/-- `q` lies strictly below `p` in the directory tree. -/
def strictDescendant (p q : List String) : Bool :=
  decide (p.length < q.length ∧ q.take p.length = p)

/-! ### The worker pool and the handoff channel

`main` spawns `concurrency` goroutines with `for i := 0; i < concurrency; i++`,
each ranging over the unbuffered channel `dirs`; the producer sends each
discovered root (`dirs <- path`), closes the channel after the walk, and
`wg.Wait()` blocks until every worker has returned.  A send on the unbuffered
channel completes only by synchronizing with a receiving worker, and each sent
value is received by exactly one worker.  The state below tracks the roots the
producer has not yet handed off, whether the channel is closed, how many
workers are still running, and the handoff log (root, worker). -/

structure PoolState where
  pending : List (List String)
  closed : Bool
  live : Nat
  log : List (List String × Nat)
deriving DecidableEq

/-- The number of workers spawned by `for i := 0; i < concurrency; i++`. -/
def spawnCount (i concurrency : Int) : Nat :=
  if i < concurrency then spawnCount (i + 1) concurrency + 1 else 0
termination_by (concurrency - i).toNat
decreasing_by omega

def initPool (roots : List (List String)) (workers : Nat) : PoolState :=
  ⟨roots, false, workers, []⟩

/-- One scheduler step of the pool, with `workers` spawned workers:
a pending root is handed to some worker `j` and executed by it; the producer
closes the channel once every root has been handed off; a worker whose range
loop ends (channel closed and drained) returns. -/
inductive PoolStep (workers : Nat) : PoolState → PoolState → Prop
  | handoff (d : List String) (rest : List (List String)) (cl : Bool) (live : Nat)
      (log : List (List String × Nat)) (j : Nat) (hj : j < workers) :
      PoolStep workers ⟨d :: rest, cl, live, log⟩ ⟨rest, cl, live, log ++ [(d, j)]⟩
  | closeChan (live : Nat) (log : List (List String × Nat)) :
      PoolStep workers ⟨[], false, live, log⟩ ⟨[], true, live, log⟩
  | finish (live : Nat) (log : List (List String × Nat)) :
      PoolStep workers ⟨[], true, live + 1, log⟩ ⟨[], true, live, log⟩

inductive PoolReach (workers : Nat) : PoolState → PoolState → Prop
  | refl (s : PoolState) : PoolReach workers s s
  | tail (s1 s2 s3 : PoolState) (h1 : PoolReach workers s1 s2)
      (h2 : PoolStep workers s2 s3) : PoolReach workers s1 s3

/-- The run has terminated: all roots handed off, channel closed, all workers
returned (so `wg.Wait()` and hence `main` have returned). -/
def poolDone (s : PoolState) : Prop :=
  s.pending = [] ∧ s.closed = true ∧ s.live = 0

/-! ### The output mutex as a transition system

Each worker executes, for each invocation it dequeues, the action sequence
`Lock; write…; Unlock` — the body of `execute` after `child.Run()` returns:
`output.Lock()`, the status/buffer writes, and the deferred `output.Unlock()`
which runs unconditionally when the locked region ends.  A scheduler
interleaves the per-worker action streams; `Action.lock` can fire only when
the mutex is free, and writing appends to the shared output trace.  Nothing
in the step rules forces writes to happen under the mutex — that workers
only write while holding it is a consequence of the program shape, proved
below. -/

inductive Action where
  | lock
  | unlock
  | put (w : Write)

/-- The action sequence of one `execute` report: lock, the report's writes,
unlock (the deferred unlock always runs when the region ends). -/
def regionProg (ws : List Write) : List Action :=
  Action.lock :: (ws.map Action.put ++ [Action.unlock])

/-- The whole action stream of one worker, given the reports of the
invocations it executes, in order. -/
def workerProg (secs : List (List Write)) : List Action :=
  (secs.map regionProg).flatten

structure MConfig where
  progs : List (List Action)
  mutex : Option Nat

def mkMConfig (secss : List (List (List Write))) : MConfig :=
  ⟨secss.map workerProg, none⟩

/-- One scheduler step: some worker performs its next action.  `lock` requires
the mutex to be free and records the locker; `unlock` frees it (the runtime
mutex does not check the caller's identity); `put` emits one write to the
shared output trace, with no mutex-related precondition of its own. -/
inductive MStep : MConfig → List Write → MConfig → Prop
  | lock (progs : List (List Action)) (i : Nat) (rest : List Action)
      (hi : i < progs.length) (hp : progs[i] = Action.lock :: rest) :
      MStep ⟨progs, none⟩ [] ⟨progs.set i rest, some i⟩
  | put (progs : List (List Action)) (mu : Option Nat) (i : Nat) (w : Write)
      (rest : List Action) (hi : i < progs.length)
      (hp : progs[i] = Action.put w :: rest) :
      MStep ⟨progs, mu⟩ [w] ⟨progs.set i rest, mu⟩
  | unlock (progs : List (List Action)) (i j : Nat) (rest : List Action)
      (hi : i < progs.length) (hp : progs[i] = Action.unlock :: rest) :
      MStep ⟨progs, some j⟩ [] ⟨progs.set i rest, none⟩

inductive MSteps : MConfig → List Write → MConfig → Prop
  | refl (c : MConfig) : MSteps c [] c
  | head (c1 : MConfig) (t1 : List Write) (c2 : MConfig) (t2 : List Write)
      (c3 : MConfig) (h1 : MStep c1 t1 c2) (h2 : MSteps c2 t2 c3) :
      MSteps c1 (t1 ++ t2) c3

/-- All workers have finished their action streams. -/
def allIdle (c : MConfig) : Prop := ∀ p ∈ c.progs, p = []

/-- Run invariant of the mutex machine.  Either the mutex is free, every
worker sits at a region boundary, and the output trace is exactly the
concatenation of the already-completed regions' write blocks (`done`); or the
mutex is held, exactly one worker is inside a region having already emitted
the writes `dpart` of it with `rrest` still to go, and the trace is the
completed blocks followed by `dpart`.  In both cases the multiset of
completed and still-owed regions is exactly `allSecs`. -/
def MInv (allSecs : List (List Write)) (c : MConfig) (t : List Write) : Prop :=
  (∃ (done : List (List Write)) (pend : List (List (List Write))),
      c.mutex = none ∧
      c.progs = pend.map workerProg ∧
      t = done.flatten ∧
      (done : Multiset (List Write)) + (pend.flatten : Multiset (List Write)) =
        (allSecs : Multiset (List Write))) ∨
  (∃ (done : List (List Write)) (pendP pendQ : List (List (List Write)))
      (dpart rrest : List Write) (rsecs : List (List Write)) (mj : Nat),
      c.mutex = some mj ∧
      c.progs = pendP.map workerProg ++
        (rrest.map Action.put ++ Action.unlock :: workerProg rsecs) ::
          pendQ.map workerProg ∧
      t = done.flatten ++ dpart ∧
      (done : Multiset (List Write)) + (pendP.flatten : Multiset (List Write)) +
        {dpart ++ rrest} + (rsecs : Multiset (List Write)) +
        (pendQ.flatten : Multiset (List Write)) =
        (allSecs : Multiset (List Write)))

/-! ### Claims about the report logic -/

/-- C5: the concurrency mode of every invocation is determined solely by the
fixed pool size: with `concurrency == 1` the child inherits the parent's
streams and no buffer contents are ever dumped; with `concurrency > 1` every
invocation gets the two private buffers, dumped only after the child exits;
and the mode is the same for every invocation of a run, being a function of
the run's single `concurrency` value alone. -/
theorem output_mode_fixed_by_concurrency (concurrency : Int) :
    (concurrency = 1 →
      childStreams concurrency = ChildStreams.inherit ∧
      ∀ o e : String, bufferDump concurrency o e = []) ∧
    (1 < concurrency →
      childStreams concurrency = ChildStreams.buffers ∧
      ∀ o e : String, bufferDump concurrency o e =
        [⟨OutStream.stdout, o⟩, ⟨OutStream.stderr, e⟩]) ∧
    (∀ j1 j2 : Job, modeOfInvocation concurrency j1 =
      modeOfInvocation concurrency j2) := by
  refine ⟨fun h => ?_, fun h => ?_, fun j1 j2 => rfl⟩
  · subst h
    exact ⟨by simp [childStreams], fun o e => by simp [bufferDump]⟩
  · have hne : concurrency ≠ 1 := by omega
    exact ⟨by simp [childStreams, hne], fun o e => by simp [bufferDump, hne]⟩

/-- Witness for C5 at the two concrete pool sizes 1 and 2. -/
theorem output_mode_fixed_by_concurrency_w :
    (childStreams 1 = ChildStreams.inherit ∧ bufferDump 1 "a" "b" = []) ∧
    (childStreams 2 = ChildStreams.buffers ∧
      bufferDump 2 "a" "b" = [⟨OutStream.stdout, "a"⟩, ⟨OutStream.stderr, "b"⟩]) :=
  ⟨⟨((output_mode_fixed_by_concurrency 1).1 rfl).1,
    ((output_mode_fixed_by_concurrency 1).1 rfl).2 "a" "b"⟩,
   ⟨((output_mode_fixed_by_concurrency 2).2.1 (by norm_num)).1,
    ((output_mode_fixed_by_concurrency 2).2.1 (by norm_num)).2 "a" "b"⟩⟩

/-- C6: the relay fires exactly when the child's termination was by a signal,
and relays that identical signal; a nonzero exit, a success, or a spawn
failure never triggers it. -/
theorem relay_exactly_on_signal (o : RunOutcome) :
    (∀ s : Nat, relaySignal o = some s ↔ o = RunOutcome.signaled s) ∧
    (relaySignal o = none ↔ ∀ s : Nat, o ≠ RunOutcome.signaled s) := by
  cases o <;> simp [relaySignal]

/-- Witness for C6: the relay fires with the child's own signal 9 for a
signaled child, and stays silent for the three non-signaled outcomes. -/
theorem relay_exactly_on_signal_w :
    relaySignal (RunOutcome.signaled 9) = some 9 ∧
    relaySignal (RunOutcome.exited 1) = none ∧
    relaySignal RunOutcome.success = none ∧
    relaySignal (RunOutcome.spawnError "enoent") = none :=
  ⟨((relay_exactly_on_signal (RunOutcome.signaled 9)).1 9).mpr rfl,
   (relay_exactly_on_signal (RunOutcome.exited 1)).2.mpr (fun s h => nomatch h),
   (relay_exactly_on_signal RunOutcome.success).2.mpr (fun s h => nomatch h),
   (relay_exactly_on_signal (RunOutcome.spawnError "enoent")).2.mpr
     (fun s h => nomatch h)⟩

/-- C8: with quiet mode on, a successful invocation prints no status line at
all, while each of the three failure kinds still prints its single failure
line on the error stream. -/
theorem quiet_mode_suppresses_only_success (dir : String) (cmd : List String)
    (c s : Nat) (m : String) :
    statusWrites true dir cmd RunOutcome.success = [] ∧
    statusWrites true dir cmd (RunOutcome.exited c) =
      [⟨OutStream.stderr, failLine dir cmd (errText (RunOutcome.exited c))⟩] ∧
    statusWrites true dir cmd (RunOutcome.signaled s) =
      [⟨OutStream.stderr, failLine dir cmd (errText (RunOutcome.signaled s))⟩] ∧
    statusWrites true dir cmd (RunOutcome.spawnError m) =
      [⟨OutStream.stderr, failLine dir cmd m⟩] := by
  refine ⟨?_, rfl, rfl, rfl⟩
  simp [statusWrites]

/-- C10: the run's own exit status is 0 whenever no child was terminated by a
signal, no matter how many invocations failed with a nonzero exit or a spawn
error and no matter how many traversal errors were printed; per-invocation
and traversal failures are never reflected in the process's exit status. -/
theorem process_exit_zero_despite_failures (walkErrors : List String)
    (results : List RunOutcome)
    (h : ∀ s : Nat, RunOutcome.signaled s ∉ results) :
    runExit walkErrors results = RunExit.code 0 := by
  have hnone : results.filterMap relaySignal = [] := by
    rw [List.filterMap_eq_nil_iff]
    intro o ho
    cases o with
    | signaled s => exact absurd ho (h s)
    | success => rfl
    | exited c => rfl
    | spawnError m => rfl
  simp [runExit, hnone]

/-- Witness for C10: a run with a traversal error, a nonzero exit and a spawn
failure still exits 0. -/
theorem process_exit_zero_despite_failures_w :
    runExit ["walk \"/x\" failed with permission denied\n"]
      [RunOutcome.exited 2, RunOutcome.spawnError "enoent", RunOutcome.success] =
      RunExit.code 0 :=
  process_exit_zero_despite_failures _ _ (fun s h => by simp at h)

/-- C3 counterexample: the traversal-error line for an unreadable directory is
written by the walker as a bare (unlocked) stderr write, not inside the output
mutex's critical section, so the claim that every failure line of the taxonomy
(including TraversalError) is written under the lock is false at this input. -/
theorem traversal_error_line_bypasses_lock_cex :
    walkerErrorEvents "/r/a" "permission denied" =
      [OutEvent.bare ⟨OutStream.stderr,
        "walk \"/r/a\" failed with permission denied\n"⟩] ∧
    (walkerErrorEvents "/r/a" "permission denied").all isLockedEvent = false ∧
    (readdirErrorEvents "/r/a" "permission denied").all isLockedEvent = false := by
  refine ⟨?_, rfl, rfl⟩
  rfl

/-- C3 (amended): the three executor failure kinds (spawn failure, nonzero
exit, signal termination) each produce their single stderr failure line while
holding the output mutex, inside `execute`'s one locked region; the walker's
TraversalError lines (walk and readdir errors) are single stderr lines
written without holding the mutex. -/
theorem failure_line_lock_placement (concurrency : Int) (quiet : Bool)
    (cmd : List String) (j : Job) (p1 m1 p2 m2 : String) :
    (∀ e ∈ executeEvents concurrency quiet cmd j, isLockedEvent e = true) ∧
    walkerErrorEvents p1 m1 =
      [OutEvent.bare ⟨OutStream.stderr, walkErrorLine p1 m1⟩] ∧
    readdirErrorEvents p2 m2 =
      [OutEvent.bare ⟨OutStream.stderr, readdirErrorLine p2 m2⟩] := by
  refine ⟨?_, rfl, rfl⟩
  intro e he
  simp [executeEvents] at he
  subst he
  rfl

/-! ### Lemmas about the walk -/

mutual
theorem walkFrom_extends (t : FsNode) (p q : List String)
    (h : q ∈ walkFrom t p) : ∃ r, q = p ++ r := by
  match t with
  | .file _ => simp [walkFrom] at h
  | .dir nm children =>
    rw [walkFrom] at h
    by_cases hg : hasGitChild children = true
    · simp [hg] at h
      exact ⟨[], by simp [h]⟩
    · simp [hg] at h
      exact walkChildren_extends children p q h

theorem walkChildren_extends (cs : List FsNode) (p q : List String)
    (h : q ∈ walkChildren cs p) : ∃ r, q = p ++ r := by
  match cs with
  | [] => simp [walkChildren] at h
  | c :: cs' =>
    rw [walkChildren] at h
    rcases List.mem_append.mp h with h1 | h2
    · obtain ⟨r, hr⟩ := walkFrom_extends c (p ++ [nodeName c]) q h1
      exact ⟨[nodeName c] ++ r, by simp [hr]⟩
    · exact walkChildren_extends cs' p q h2
end

/-- Every root emitted below one child of `p`'s directory starts with the
path of that child. -/
theorem walkChildren_shape (cs : List FsNode) (p q : List String)
    (h : q ∈ walkChildren cs p) :
    ∃ c ∈ cs, ∃ r, q = p ++ nodeName c :: r ∧
      q ∈ walkFrom c (p ++ [nodeName c]) := by
  induction cs with
  | nil => simp [walkChildren] at h
  | cons c0 cs' ih =>
    rw [walkChildren] at h
    rcases List.mem_append.mp h with h1 | h2
    · obtain ⟨r, hr⟩ := walkFrom_extends c0 (p ++ [nodeName c0]) q h1
      exact ⟨c0, List.mem_cons_self _ _, r, by simp [hr], h1⟩
    · obtain ⟨c, hc, r, hr, hm⟩ := ih h2
      exact ⟨c, List.mem_cons_of_mem _ hc, r, hr, hm⟩

/-- Paths that differ at the position right after a common stem are never
ancestor and descendant. -/
theorem strictDescendant_mid_ne {a b : String} (hab : a ≠ b) :
    ∀ (p r1 r2 : List String),
      strictDescendant (p ++ a :: r1) (p ++ b :: r2) = false := by
  intro p
  induction p with
  | nil =>
    intro r1 r2
    simp only [List.nil_append, strictDescendant, decide_eq_false_iff_not]
    rintro ⟨h1, h2⟩
    rw [List.length_cons, List.take_succ_cons] at h2
    exact hab (List.cons.inj h2).1.symm
  | cons x p ih =>
    intro r1 r2
    simp only [List.cons_append, strictDescendant, decide_eq_false_iff_not]
    rintro ⟨h1, h2⟩
    rw [List.length_cons, List.take_succ_cons] at h2
    have h2' := (List.cons.inj h2).2
    have hfalse := ih r1 r2
    simp only [strictDescendant, decide_eq_false_iff_not] at hfalse
    refine hfalse ⟨?_, h2'⟩
    simp only [List.length_cons] at h1
    omega

theorem distinctNames_cons {n : String} {ns : List String}
    (h : distinctNames (n :: ns) = true) :
    (n ∈ ns → False) ∧ distinctNames ns = true := by
  rw [distinctNames, Bool.and_eq_true, Bool.not_eq_true'] at h
  refine ⟨fun hm => ?_, h.2⟩
  have hx : n ∉ ns := by simpa using h.1
  exact hx hm

theorem wfList_mem {cs : List FsNode} {c : FsNode}
    (h : wfList cs = true) (hc : c ∈ cs) : wfNode c = true := by
  induction cs with
  | nil => cases hc
  | cons c0 cs' ih =>
    rw [wfList, Bool.and_eq_true] at h
    rcases List.mem_cons.mp hc with h1 | h2
    · subst h1; exact h.1
    · exact ih h.2 h2

theorem wfNode_dir {nm : String} {children : List FsNode}
    (h : wfNode (FsNode.dir nm children) = true) :
    distinctNames (children.map nodeName) = true ∧ wfList children = true := by
  rw [wfNode, Bool.and_eq_true] at h
  exact h

mutual
/-- No two roots emitted while walking a well-formed tree are in
ancestor/descendant relation: the walk prunes at the first match and never
re-enters. -/
theorem walkFrom_no_descend (t : FsNode) (p q1 q2 : List String)
    (hwf : wfNode t = true) (h1 : q1 ∈ walkFrom t p) (h2 : q2 ∈ walkFrom t p) :
    strictDescendant q1 q2 = false := by
  match t with
  | .file _ => simp [walkFrom] at h1
  | .dir nm children =>
    rw [walkFrom] at h1 h2
    by_cases hg : hasGitChild children = true
    · simp [hg] at h1 h2
      subst h1; subst h2
      simp [strictDescendant]
    · simp [hg] at h1 h2
      obtain ⟨hd, hl⟩ := wfNode_dir hwf
      exact walkChildren_no_descend children p q1 q2 hd hl h1 h2

theorem walkChildren_no_descend (cs : List FsNode) (p q1 q2 : List String)
    (hn : distinctNames (cs.map nodeName) = true) (hwf : wfList cs = true)
    (h1 : q1 ∈ walkChildren cs p) (h2 : q2 ∈ walkChildren cs p) :
    strictDescendant q1 q2 = false := by
  match cs with
  | [] => simp [walkChildren] at h1
  | c0 :: cs' =>
    rw [walkChildren] at h1 h2
    rw [wfList, Bool.and_eq_true] at hwf
    have hn0 := distinctNames_cons (by simpa using hn)
    rcases List.mem_append.mp h1 with ha1 | hb1 <;>
      rcases List.mem_append.mp h2 with ha2 | hb2
    · exact walkFrom_no_descend c0 _ q1 q2 hwf.1 ha1 ha2
    · obtain ⟨r1, hr1⟩ := walkFrom_extends c0 _ q1 ha1
      obtain ⟨c', hc', r2, hr2, _⟩ := walkChildren_shape cs' p q2 hb2
      have hne : nodeName c0 ≠ nodeName c' := by
        intro he
        exact hn0.1 (he ▸ List.mem_map_of_mem nodeName hc')
      rw [hr1, hr2, ← List.append_cons p (nodeName c0) r1]
      exact strictDescendant_mid_ne hne p r1 r2
    · obtain ⟨c', hc', r1, hr1, _⟩ := walkChildren_shape cs' p q1 hb1
      obtain ⟨r2, hr2⟩ := walkFrom_extends c0 _ q2 ha2
      have hne : nodeName c' ≠ nodeName c0 := by
        intro he
        exact hn0.1 (he ▸ List.mem_map_of_mem nodeName hc')
      rw [hr1, hr2, ← List.append_cons p (nodeName c0) r2]
      exact strictDescendant_mid_ne hne p r1 r2
    · exact walkChildren_no_descend cs' p q1 q2 hn0.2 hwf.2 hb1 hb2
end

theorem childNamed_mem {cs : List FsNode} {n : String} {c : FsNode}
    (h : childNamed cs n = some c) : c ∈ cs ∧ nodeName c = n := by
  induction cs with
  | nil => cases h
  | cons c0 cs' ih =>
    rw [childNamed] at h
    by_cases h0 : (nodeName c0 == n) = true
    · rw [if_pos h0] at h
      injection h with h
      subst h
      exact ⟨List.mem_cons_self _ _, by simpa using h0⟩
    · rw [if_neg h0] at h
      obtain ⟨hm, hn⟩ := ih h
      exact ⟨List.mem_cons_of_mem _ hm, hn⟩

/-- Counting occurrences of the target path among the roots produced by the
walk of the children: only the subtree of the child the path enters can
contribute. -/
theorem walkChildren_count (cs : List FsNode) (p : List String) (n : String)
    (rest : List String) (c : FsNode) (hfind : childNamed cs n = some c)
    (hwf : wfList cs = true) (hn : distinctNames (cs.map nodeName) = true)
    (hcount : List.count ((p ++ [n]) ++ rest) (walkFrom c (p ++ [n])) = 1) :
    List.count (p ++ n :: rest) (walkChildren cs p) = 1 := by
  induction cs with
  | nil => cases hfind
  | cons c0 cs' ih =>
    rw [childNamed] at hfind
    rw [wfList, Bool.and_eq_true] at hwf
    have hn0 := distinctNames_cons (by simpa using hn)
    rw [walkChildren, List.count_append]
    by_cases h0 : (nodeName c0 == n) = true
    · rw [if_pos h0] at hfind
      have hc0 : c0 = c := by injection hfind
      have hname : nodeName c0 = n := by simpa using h0
      have hzero : List.count (p ++ n :: rest) (walkChildren cs' p) = 0 := by
        rw [List.count_eq_zero]
        intro hmem
        obtain ⟨c', hc', r, hr, _⟩ := walkChildren_shape cs' p _ hmem
        have heq : n = nodeName c' := by
          have := List.append_cancel_left hr
          exact (List.cons.inj this).1
        exact hn0.1 (hname ▸ heq ▸ List.mem_map_of_mem nodeName hc')
      rw [hzero, hname, hc0]
      rw [← List.append_cons p n rest] at hcount
      omega
    · rw [if_neg h0] at hfind
      have hne : nodeName c0 ≠ n := by simpa using h0
      have hzero : List.count (p ++ n :: rest)
          (walkFrom c0 (p ++ [nodeName c0])) = 0 := by
        rw [List.count_eq_zero]
        intro hmem
        obtain ⟨r, hr⟩ := walkFrom_extends c0 _ _ hmem
        rw [← List.append_cons p (nodeName c0) r] at hr
        have hh := List.append_cancel_left hr
        exact hne (List.cons.inj hh).1.symm
      rw [hzero]
      have := ih hfind hwf.2 hn0.2
      omega

/-- In a well-formed tree, a repository root at relative path `rel` with no
repository root strictly above it is emitted exactly once by the walk. -/
theorem walkFrom_count_one :
    ∀ (rel : List String) (t : FsNode) (p : List String) (sub : FsNode),
      wfNode t = true → subtreeAt t rel = some sub → isRepoRoot sub = true →
      noRepoAbove t rel = true →
      List.count (p ++ rel) (walkFrom t p) = 1
  | [], t, p, sub, hwf, hsub, hrepo, _ => by
      rw [subtreeAt] at hsub
      injection hsub with hsub
      subst hsub
      match t with
      | .file nm => simp [isRepoRoot] at hrepo
      | .dir nm children =>
        rw [isRepoRoot] at hrepo
        rw [walkFrom, if_pos hrepo]
        simp
  | n :: rest, t, p, sub, hwf, hsub, hrepo, habove => by
      match t with
      | .file nm => simp [noRepoAbove] at habove
      | .dir nm children =>
        rw [noRepoAbove, Bool.and_eq_true, Bool.not_eq_true'] at habove
        obtain ⟨hg, hrest⟩ := habove
        cases hfind : childNamed children n with
        | none => rw [hfind] at hrest; simp at hrest
        | some c =>
          rw [hfind] at hrest
          simp only at hrest
          rw [subtreeAt, hfind] at hsub
          simp only at hsub
          obtain ⟨hcmem, hcname⟩ := childNamed_mem hfind
          have hwfc : wfNode c = true := wfList_mem (wfNode_dir hwf).2 hcmem
          have hrec := walkFrom_count_one rest c (p ++ [n]) sub hwfc hsub hrepo hrest
          rw [walkFrom, if_neg (by simp [hg])]
          exact walkChildren_count children p n rest c hfind (wfNode_dir hwf).2
            (wfNode_dir hwf).1 hrec

/-! ### Claims about the walk -/

/-- C4 counterexample: in the tree `A/{.git, B/.git}` the directory `A/B`
directly contains a ".git" marker, yet the walk emits no invocation for it:
the walker emits `A` and returns `filepath.SkipDir`, pruning the whole
subtree, so the claim's "exactly one invocation with working directory P" is
false at P = A/B (the walk emits exactly `[A]`). -/
theorem nested_repo_root_never_invoked_cex :
    isRepoRoot (FsNode.dir "B" [FsNode.dir ".git" []]) = true ∧
    subtreeAt
      (FsNode.dir "A" [FsNode.dir ".git" [],
        FsNode.dir "B" [FsNode.dir ".git" []]]) ["B"] =
      some (FsNode.dir "B" [FsNode.dir ".git" []]) ∧
    wfNode (FsNode.dir "A" [FsNode.dir ".git" [],
      FsNode.dir "B" [FsNode.dir ".git" []]]) = true ∧
    walkFrom (FsNode.dir "A" [FsNode.dir ".git" [],
      FsNode.dir "B" [FsNode.dir ".git" []]]) ["A"] = [["A"]] ∧
    List.count ["A", "B"]
      (walkFrom (FsNode.dir "A" [FsNode.dir ".git" [],
        FsNode.dir "B" [FsNode.dir ".git" []]]) ["A"]) = 0 :=
  ⟨rfl, rfl, rfl, rfl, rfl⟩

/-- C4 (amended): for every well-formed directory tree and every directory at
relative path `rel` that directly contains a ".git" marker directory and has
no repository root strictly above it, the walk emits exactly one invocation
for that directory, and no invocation for any strict descendant of it
(traversal is pruned at the first match and does not re-enter); a marker
nested strictly inside another repository root's subtree is never invoked. -/
theorem prune_at_first_match (t : FsNode) (p rel : List String) (sub : FsNode)
    (hwf : wfNode t = true) (hsub : subtreeAt t rel = some sub)
    (hrepo : isRepoRoot sub = true) (habove : noRepoAbove t rel = true) :
    List.count (p ++ rel) (walkFrom t p) = 1 ∧
    ∀ q ∈ walkFrom t p, strictDescendant (p ++ rel) q = false := by
  have hc := walkFrom_count_one rel t p sub hwf hsub hrepo habove
  refine ⟨hc, fun q hq => ?_⟩
  have hmem : (p ++ rel) ∈ walkFrom t p := by
    have hpos : 0 < List.count (p ++ rel) (walkFrom t p) := by omega
    exact List.count_pos_iff.mp hpos
  exact walkFrom_no_descend t p (p ++ rel) q hwf hmem hq

/-- Witness for C4 (amended) on the tree `A/C/.git`: the walk of `A` emits
exactly one invocation at `A/C` and nothing below it. -/
theorem prune_at_first_match_w :
    List.count ["A", "C"]
      (walkFrom (FsNode.dir "A" [FsNode.dir "C" [FsNode.dir ".git" []]])
        ["A"]) = 1 ∧
    ∀ q ∈ walkFrom (FsNode.dir "A" [FsNode.dir "C" [FsNode.dir ".git" []]])
        ["A"], strictDescendant ["A", "C"] q = false := by
  have h := prune_at_first_match
    (FsNode.dir "A" [FsNode.dir "C" [FsNode.dir ".git" []]])
    ["A"] ["C"] (FsNode.dir "C" [FsNode.dir ".git" []]) rfl rfl rfl rfl
  simpa using h

/-! ### Lemmas about the pool -/

/-- Along any pool run, the roots already handed off (in order) followed by
the roots still pending are exactly the produced roots; and once the channel
is closed nothing is pending. -/
theorem poolReach_invariant (workers : Nat) (roots : List (List String))
    (s0 s : PoolState) (h : PoolReach workers s0 s)
    (h0 : s0.log.map Prod.fst ++ s0.pending = roots ∧
      (s0.closed = true → s0.pending = [])) :
    s.log.map Prod.fst ++ s.pending = roots ∧
      (s.closed = true → s.pending = []) := by
  induction h with
  | refl => exact h0
  | tail s2 s3 hstep2 hstep ih =>
    obtain ⟨hlog, hcl⟩ := ih
    cases hstep with
    | handoff d rest cl live log j hj =>
      constructor
      · simp only [List.map_append, List.map_cons, List.map_nil] at hlog ⊢
        rw [List.append_assoc]
        simpa using hlog
      · intro hc
        simp only at hcl
        have := hcl hc
        cases this
    | closeChan live log =>
      exact ⟨hlog, fun _ => rfl⟩
    | finish live log =>
      exact ⟨hlog, fun _ => rfl⟩

/-- With zero workers spawned, a pool whose producer still has a root to hand
off can take no step at all: the unbuffered send has no receiver, close is
unreachable, and there is no worker to finish. -/
theorem poolReach_zero_stuck (s0 s : PoolState) (h : PoolReach 0 s0 s)
    (hp : s0.pending ≠ []) (hc : s0.closed = false) (hl : s0.live = 0) :
    s = s0 := by
  induction h with
  | refl => rfl
  | tail s2 s3 hstep2 hstep ih =>
    rw [ih] at hstep
    cases hstep with
    | handoff d rest cl live log j hj => exact absurd hj (by omega)
    | closeChan live log => simp at hp
    | finish live log => simp at hl

/-! ### Claims about the pool -/

/-- C2: for every number of workers `workers ≥ 1` and every tree, in every
terminating run of the pool the handoff log contains exactly the discovered
repository roots, in discovery order — exactly M invocations for M discovered
roots, each consumed by exactly one worker, regardless of the worker count. -/
theorem every_root_invoked_once (workers : Nat) (hw : 1 ≤ workers)
    (t : FsNode) (p : List String) (s : PoolState)
    (hreach : PoolReach workers (initPool (walkFrom t p) workers) s)
    (hdone : poolDone s) :
    s.log.map Prod.fst = walkFrom t p ∧
    s.log.length = (walkFrom t p).length := by
  have h := poolReach_invariant workers (walkFrom t p) _ s hreach
    (by simp [initPool])
  obtain ⟨hlog, _⟩ := h
  rw [hdone.1, List.append_nil] at hlog
  refine ⟨hlog, ?_⟩
  rw [← hlog]
  simp

/-- Witness for C2: with one worker and the tree `r/.git`, the terminating
run hands off exactly the one discovered root `r`. -/
theorem every_root_invoked_once_w :
    (PoolState.mk [] true 0 [(["r"], 0)]).log.map Prod.fst =
      walkFrom (FsNode.dir "r" [FsNode.dir ".git" []]) ["r"] ∧
    (PoolState.mk [] true 0 [(["r"], 0)]).log.length =
      (walkFrom (FsNode.dir "r" [FsNode.dir ".git" []]) ["r"]).length := by
  refine every_root_invoked_once 1 (by omega) _ _ _ ?_ ⟨rfl, rfl, rfl⟩
  exact PoolReach.tail _ _ _
    (PoolReach.tail _ _ _
      (PoolReach.tail _ _ _ (PoolReach.refl _)
        (PoolStep.handoff ["r"] [] false 1 [] 0 (by omega)))
      (PoolStep.closeChan 1 [(["r"], 0)]))
    (PoolStep.finish 0 [(["r"], 0)])

/-- C9: if the configured concurrency is not positive (never guarded against
in the source), the spawn loop `for i := 0; i < concurrency; i++` spawns zero
workers, and as soon as the walk discovers one repository root the producer's
unbuffered send can never complete: the pool takes no step, never reaches the
terminated state, and `main` never returns.  Termination thus requires
concurrency ≥ 1. -/
theorem nonpositive_concurrency_never_terminates (concurrency : Int)
    (hc : concurrency ≤ 0) (roots : List (List String)) (hr : roots ≠ [])
    (s : PoolState)
    (hreach : PoolReach (spawnCount 0 concurrency)
      (initPool roots (spawnCount 0 concurrency)) s) :
    spawnCount 0 concurrency = 0 ∧ ¬ poolDone s := by
  have hzero : spawnCount 0 concurrency = 0 := by
    rw [spawnCount, if_neg (by omega)]
  rw [hzero] at hreach
  have hs := poolReach_zero_stuck (initPool roots 0) s hreach
    (by simpa [initPool] using hr) rfl rfl
  refine ⟨hzero, ?_⟩
  rw [hs]
  rintro ⟨h1, h2, h3⟩
  simp only [initPool] at h1
  exact hr h1

/-- Witness for C9: concurrency 0 with one discovered root: zero workers are
spawned and the initial state is not terminated (nor is any reachable one). -/
theorem nonpositive_concurrency_never_terminates_w :
    spawnCount 0 0 = 0 ∧
    ¬ poolDone (initPool [["r"]] (spawnCount 0 0)) :=
  nonpositive_concurrency_never_terminates 0 (by omega) [["r"]]
    (by simp) _ (PoolReach.refl _)

/-! ### Lemmas about the mutex machine -/

theorem workerProg_cons (ws : List Write) (secs : List (List Write)) :
    workerProg (ws :: secs) =
      Action.lock :: (ws.map Action.put ++ Action.unlock :: workerProg secs) := by
  simp [workerProg, regionProg, List.flatten_cons]

theorem workerProg_eq_nil {secs : List (List Write)}
    (h : workerProg secs = []) : secs = [] := by
  cases secs with
  | nil => rfl
  | cons ws secs => rw [workerProg_cons] at h; cases h

theorem workerProg_ne_put (secs : List (List Write)) (w : Write)
    (rest : List Action) : workerProg secs ≠ Action.put w :: rest := by
  cases secs with
  | nil => intro h; cases h
  | cons ws secs => rw [workerProg_cons]; intro h; simp at h

theorem workerProg_ne_unlock (secs : List (List Write)) (rest : List Action) :
    workerProg secs ≠ Action.unlock :: rest := by
  cases secs with
  | nil => intro h; cases h
  | cons ws secs => rw [workerProg_cons]; intro h; simp at h

theorem workerProg_lock_shape {secs : List (List Write)} {rest : List Action}
    (h : workerProg secs = Action.lock :: rest) :
    ∃ ws secs2, secs = ws :: secs2 ∧
      rest = ws.map Action.put ++ Action.unlock :: workerProg secs2 := by
  cases secs with
  | nil => cases h
  | cons ws secs2 =>
    rw [workerProg_cons] at h
    exact ⟨ws, secs2, rfl, ((List.cons.inj h).2).symm⟩

theorem not_mem_map_workerProg_put (pend : List (List (List Write)))
    (w : Write) (rest : List Action) :
    (Action.put w :: rest) ∉ pend.map workerProg := by
  intro hm
  obtain ⟨s, hs, he⟩ := List.mem_map.mp hm
  exact workerProg_ne_put s w rest he

theorem not_mem_map_workerProg_unlock (pend : List (List (List Write)))
    (rest : List Action) :
    (Action.unlock :: rest) ∉ pend.map workerProg := by
  intro hm
  obtain ⟨s, hs, he⟩ := List.mem_map.mp hm
  exact workerProg_ne_unlock s rest he

/-- Splitting a mapped list at a known index. -/
theorem map_split {α β : Type} (f : β → α) (l : List β) (k : Nat) (v : α)
    (hv : (l.map f)[k]? = some v) :
    ∃ P b Q, l = P ++ b :: Q ∧ P.length = k ∧ f b = v := by
  induction l generalizing k with
  | nil => simp at hv
  | cons b0 l ih =>
    cases k with
    | zero =>
      rw [List.map_cons, List.getElem?_cons_zero] at hv
      injection hv with hv
      exact ⟨[], b0, l, rfl, rfl, hv⟩
    | succ k =>
      rw [List.map_cons, List.getElem?_cons_succ] at hv
      obtain ⟨P, b, Q, hl, hP, hf⟩ := ih _ hv
      exact ⟨b0 :: P, b, Q, by rw [hl]; rfl, by simp [hP], hf⟩

/-- An element found at index `k` of `P ++ m :: Q` that occurs neither in `P`
nor in `Q` must be the middle element, and `k` its position. -/
theorem getElem?_append_cons_not_mem {α : Type} {P Q : List α} {m v : α}
    {k : Nat} (hv : (P ++ m :: Q)[k]? = some v) (hP : v ∉ P) (hQ : v ∉ Q) :
    k = P.length ∧ m = v := by
  induction P generalizing k with
  | nil =>
    simp only [List.nil_append] at hv
    cases k with
    | zero =>
      rw [List.getElem?_cons_zero] at hv
      injection hv with hv
      exact ⟨rfl, hv⟩
    | succ k =>
      rw [List.getElem?_cons_succ] at hv
      exact absurd (List.getElem?_mem hv) hQ
  | cons p P ih =>
    cases k with
    | zero =>
      rw [List.cons_append, List.getElem?_cons_zero] at hv
      injection hv with hv
      exact absurd (hv ▸ List.mem_cons_self p P) hP
    | succ k =>
      rw [List.cons_append, List.getElem?_cons_succ] at hv
      have h := ih hv (fun hm => hP (List.mem_cons_of_mem p hm))
      exact ⟨by simp [h.1], h.2⟩

theorem set_append_cons_length {α : Type} (P : List α) (m a : α)
    (Q : List α) : (P ++ m :: Q).set P.length a = P ++ a :: Q := by
  induction P with
  | nil => rfl
  | cons p P ih =>
    simp only [List.cons_append, List.length_cons, List.set_cons_succ]
    rw [ih]

/-- One machine step preserves the run invariant. -/
theorem MInv_step {allSecs : List (List Write)} {c c2 : MConfig}
    {t tw : List Write} (hstep : MStep c tw c2) (hinv : MInv allSecs c t) :
    MInv allSecs c2 (t ++ tw) := by
  cases hstep with
  | lock progs i rest hi hp =>
    rcases hinv with ⟨done, pend, hmu, hprogs, ht, hms⟩ |
      ⟨done, pendP, pendQ, dpart, rrest, rsecs, mj, hmu, hprogs, ht, hms⟩
    · simp only at hprogs
      subst hprogs
      have hp? : (pend.map workerProg)[i]? = some (Action.lock :: rest) := by
        rw [List.getElem?_eq_getElem hi]
        exact congrArg some hp
      obtain ⟨P, s0, Q, hpend, hPlen, hf⟩ := map_split workerProg pend i _ hp?
      obtain ⟨ws, rsecs, hs0, hrest⟩ := workerProg_lock_shape hf
      subst hs0
      subst hpend
      refine Or.inr ⟨done, P, Q, [], ws, rsecs, i, rfl, ?_, ?_, ?_⟩
      · simp only [List.map_append, List.map_cons]
        have hlen : i = (P.map workerProg).length := by simp [← hPlen]
        rw [hlen, set_append_cons_length, hrest]
      · simpa using ht
      · rw [← hms]
        simp only [List.flatten_append, List.flatten_cons, List.nil_append,
          ← Multiset.coe_add, ← Multiset.cons_coe, ← Multiset.singleton_add]
        abel
    · simp only at hmu
      cases hmu
  | put progs mu k w rest hi hp =>
    have hp? : progs[k]? = some (Action.put w :: rest) := by
      rw [List.getElem?_eq_getElem hi]
      exact congrArg some hp
    rcases hinv with ⟨done, pend, hmu, hprogs, ht, hms⟩ |
      ⟨done, pendP, pendQ, dpart, rrest, rsecs, mj, hmu, hprogs, ht, hms⟩
    · exfalso
      simp only at hprogs
      subst hprogs
      obtain ⟨P, s0, Q, _, _, hf⟩ := map_split workerProg pend k _ hp?
      exact workerProg_ne_put s0 w rest hf
    · simp only at hprogs hmu
      subst hprogs
      obtain ⟨hk, hmid⟩ := getElem?_append_cons_not_mem hp?
        (not_mem_map_workerProg_put pendP w rest)
        (not_mem_map_workerProg_put pendQ w rest)
      cases rrest with
      | nil => simp at hmid
      | cons w0 rrest2 =>
        simp only [List.map_cons, List.cons_append] at hmid
        have hw0 : Action.put w0 = Action.put w := (List.cons.inj hmid).1
        have hrest : rrest2.map Action.put ++ Action.unlock ::
            workerProg rsecs = rest := (List.cons.inj hmid).2
        have hww : w0 = w := by injection hw0
        subst hww
        refine Or.inr ⟨done, pendP, pendQ, dpart ++ [w0], rrest2, rsecs, mj,
          hmu, ?_, ?_, ?_⟩
        · have hlen : k = (pendP.map workerProg).length := by simp [hk]
          rw [hlen, set_append_cons_length, hrest]
        · rw [ht, List.append_assoc]
        · rw [← hms]
          have hl : (dpart ++ [w0]) ++ rrest2 = dpart ++ w0 :: rrest2 := by
            simp
          rw [hl]
  | unlock progs k mj0 rest hi hp =>
    have hp? : progs[k]? = some (Action.unlock :: rest) := by
      rw [List.getElem?_eq_getElem hi]
      exact congrArg some hp
    rcases hinv with ⟨done, pend, hmu, hprogs, ht, hms⟩ |
      ⟨done, pendP, pendQ, dpart, rrest, rsecs, mj, hmu, hprogs, ht, hms⟩
    · simp only at hmu
      cases hmu
    · simp only at hprogs
      subst hprogs
      obtain ⟨hk, hmid⟩ := getElem?_append_cons_not_mem hp?
        (not_mem_map_workerProg_unlock pendP rest)
        (not_mem_map_workerProg_unlock pendQ rest)
      cases rrest with
      | cons w0 rrest2 => simp at hmid
      | nil =>
        simp only [List.map_nil, List.nil_append] at hmid
        have hrest : workerProg rsecs = rest := (List.cons.inj hmid).2
        refine Or.inl ⟨done ++ [dpart], pendP ++ rsecs :: pendQ, rfl, ?_, ?_, ?_⟩
        · have hlen : k = (pendP.map workerProg).length := by simp [hk]
          rw [hlen, set_append_cons_length, ← hrest, List.map_append,
            List.map_cons]
        · rw [ht]
          simp [List.flatten_append]
        · rw [← hms]
          simp only [List.flatten_append, List.flatten_cons, List.append_nil,
            ← Multiset.coe_add, ← Multiset.cons_coe, ← Multiset.singleton_add]
          abel

/-- The run invariant holds along any multi-step execution. -/
theorem MInv_steps {allSecs : List (List Write)} {c1 c2 : MConfig}
    {t : List Write} (hsteps : MSteps c1 t c2) :
    ∀ t0, MInv allSecs c1 t0 → MInv allSecs c2 (t0 ++ t) := by
  induction hsteps with
  | refl c => intro t0 h; simpa using h
  | head ca t1 cb t2 cc h1 h2 ih =>
    intro t0 h
    rw [← List.append_assoc]
    exact ih (t0 ++ t1) (MInv_step h1 h)

/-- Main lemma: in any terminating execution of the mutex machine from the
initial configuration, the output trace is a concatenation of whole region
write-blocks, one block per region, in some order. -/
theorem mutexRun_blocks (secss : List (List (List Write))) (t : List Write)
    (c : MConfig) (hrun : MSteps (mkMConfig secss) t c) (hdone : allIdle c) :
    ∃ blocks : List (List Write),
      t = blocks.flatten ∧ List.Perm blocks secss.flatten := by
  have hinv0 : MInv secss.flatten (mkMConfig secss) [] := by
    left
    exact ⟨[], secss, rfl, rfl, rfl, by simp⟩
  have hinv := MInv_steps hrun [] hinv0
  rw [List.nil_append] at hinv
  rcases hinv with ⟨done, pend, hmu, hprogs, ht, hms⟩ |
    ⟨done, pendP, pendQ, dpart, rrest, rsecs, mj, hmu, hprogs, ht, hms⟩
  · refine ⟨done, ht, ?_⟩
    have hpend : pend.flatten = [] := by
      rw [List.flatten_eq_nil_iff]
      intro s hs
      have hmem : workerProg s ∈ c.progs := by
        rw [hprogs]
        exact List.mem_map_of_mem workerProg hs
      exact workerProg_eq_nil (hdone _ hmem)
    rw [hpend] at hms
    simp only [Multiset.coe_nil, add_zero] at hms
    exact Multiset.coe_eq_coe.mp hms
  · exfalso
    have hmem : (rrest.map Action.put ++ Action.unlock :: workerProg rsecs) ∈
        c.progs := by
      rw [hprogs]
      exact List.mem_append_right _ (List.mem_cons_self _ _)
    have := hdone _ hmem
    cases rrest <;> simp at this

/-- A one-worker, one-region execution of the machine, used as a concrete
terminating run. -/
theorem msteps_single (ws : List Write) :
    MSteps (mkMConfig [[ws]]) ws ⟨[[]], none⟩ := by
  have h : mkMConfig [[ws]] =
      ⟨[Action.lock :: (ws.map Action.put ++ [Action.unlock])], none⟩ := by
    simp [mkMConfig, workerProg, regionProg]
  rw [h]
  have hrec : ∀ r : List Write,
      MSteps ⟨[r.map Action.put ++ [Action.unlock]], some 0⟩ r ⟨[[]], none⟩ := by
    intro r
    induction r with
    | nil =>
      have hstep : MStep ⟨[[Action.unlock]], some 0⟩ []
          ⟨[[]], none⟩ :=
        MStep.unlock [[Action.unlock]] 0 0 [] (by simp) rfl
      exact MSteps.head _ [] _ [] _ hstep (MSteps.refl _)
    | cons w r ih =>
      have hstep : MStep ⟨[Action.put w :: (r.map Action.put ++
          [Action.unlock])], some 0⟩ [w]
          ⟨[r.map Action.put ++ [Action.unlock]], some 0⟩ :=
        MStep.put _ (some 0) 0 w _ (by simp) rfl
      exact MSteps.head _ [w] _ r _ hstep ih
  have hlock : MStep ⟨[Action.lock :: (ws.map Action.put ++
      [Action.unlock])], none⟩ []
      ⟨[ws.map Action.put ++ [Action.unlock]], some 0⟩ :=
    MStep.lock _ 0 _ (by simp) rfl
  exact MSteps.head _ [] _ ws _ hlock (hrec ws)

/-! ### Claims about the mutex machine -/

/-- C1: for any number of workers and any scheduling the machine allows, the
write trace of a terminating run is a concatenation of whole report critical
sections — one block per `execute` report (the status line plus, in buffered
mode, the captured output dump of that one result) — so the writes of two
distinct reports never interleave byte-for-byte; each report's writes all sit
between its `Lock` and its deferred `Unlock`, which runs unconditionally at
the end of the region. -/
theorem report_sections_do_not_interleave (concurrency : Int) (quiet : Bool)
    (cmd : List String) (jobs : List (List Job)) (t : List Write) (c : MConfig)
    (hrun : MSteps (mkMConfig (jobs.map
      (fun js => js.map (reportOfJob concurrency quiet cmd)))) t c)
    (hdone : allIdle c) :
    ∃ blocks : List (List Write),
      t = blocks.flatten ∧
      List.Perm blocks ((jobs.map
        (fun js => js.map (reportOfJob concurrency quiet cmd))).flatten) :=
  mutexRun_blocks _ t c hrun hdone

/-- Witness for C1: a one-worker run of one buffered quiet-success report,
executed to completion; its trace is exactly its own block. -/
theorem report_sections_do_not_interleave_w :
    ∃ blocks : List (List Write),
      reportOfJob 2 true ["git"] ⟨"d", RunOutcome.success, "o", "e"⟩ =
        blocks.flatten ∧
      List.Perm blocks (([[(⟨"d", RunOutcome.success, "o", "e"⟩ : Job)]].map
        (fun js => js.map (reportOfJob 2 true ["git"]))).flatten) :=
  report_sections_do_not_interleave 2 true ["git"]
    [[⟨"d", RunOutcome.success, "o", "e"⟩]] _ _
    (msteps_single _) (fun p hp => by simpa using hp)

/-- C7: in buffered mode (`concurrency ≠ 1`), each invocation's captured
stdout bytes and then its stderr bytes appear in the final combined output
immediately after that invocation's status writes, contiguously, inside the
same critical section — never separated by another worker's output. -/
theorem buffered_output_contiguous_with_status (concurrency : Int)
    (hconc : concurrency ≠ 1) (quiet : Bool) (cmd : List String)
    (jobs : List (List Job)) (j : Job) (hj : j ∈ jobs.flatten)
    (t : List Write) (c : MConfig)
    (hrun : MSteps (mkMConfig (jobs.map
      (fun js => js.map (reportOfJob concurrency quiet cmd)))) t c)
    (hdone : allIdle c) :
    ∃ u v : List Write,
      t = u ++ ((statusWrites quiet j.dir cmd j.outcome ++
        [⟨OutStream.stdout, j.outBuf⟩, ⟨OutStream.stderr, j.errBuf⟩]) ++ v) := by
  obtain ⟨blocks, ht, hperm⟩ := mutexRun_blocks _ t c hrun hdone
  have hrep : reportOfJob concurrency quiet cmd j =
      statusWrites quiet j.dir cmd j.outcome ++
        [⟨OutStream.stdout, j.outBuf⟩, ⟨OutStream.stderr, j.errBuf⟩] := by
    simp [reportOfJob, reportWrites, bufferDump, hconc]
  have hmemflat : reportOfJob concurrency quiet cmd j ∈
      (jobs.map (fun js => js.map (reportOfJob concurrency quiet cmd))).flatten := by
    rw [List.mem_flatten]
    obtain ⟨js, hjs, hjj⟩ := List.mem_flatten.mp hj
    exact ⟨js.map (reportOfJob concurrency quiet cmd),
      List.mem_map_of_mem _ hjs, List.mem_map_of_mem _ hjj⟩
  have hmem : reportOfJob concurrency quiet cmd j ∈ blocks :=
    hperm.mem_iff.mpr hmemflat
  obtain ⟨l1, l2, hblocks⟩ := List.append_of_mem hmem
  refine ⟨l1.flatten, l2.flatten, ?_⟩
  rw [ht, hblocks]
  simp only [List.flatten_append, List.flatten_cons]
  rw [hrep]

/-- Witness for C7: one worker, one buffered invocation that exits nonzero
(pool size 3): in the final trace its status line is immediately followed by
its stdout dump and then its stderr dump. -/
theorem buffered_output_contiguous_with_status_w :
    ∃ u v : List Write,
      reportOfJob 3 false ["git", "fetch"]
          ⟨"w", RunOutcome.exited 1, "x", "y"⟩ =
        u ++ ((statusWrites false "w" ["git", "fetch"] (RunOutcome.exited 1) ++
          [⟨OutStream.stdout, "x"⟩, ⟨OutStream.stderr, "y"⟩]) ++ v) :=
  buffered_output_contiguous_with_status 3 (by norm_num) false
    ["git", "fetch"] [[⟨"w", RunOutcome.exited 1, "x", "y"⟩]]
    ⟨"w", RunOutcome.exited 1, "x", "y"⟩ (by simp) _ _
    (msteps_single _) (fun p hp => by simpa using hp)

end GitWalk
